import Mathlib

/-!
Verification of the extraction and scheduling core of `NFLverse_scraping.py`.

The Python source is shallowly embedded as total Lean functions:

* character classes of Python's regex escapes restricted to ASCII
  (the pages and all inputs in this development are ASCII);
* `str.strip`, `str.startswith`, `str.split()` and `" ".join` as
  `List Char` operations;
* the regexes `(\d+-\d+-\d+)`, `Coach:\s*(.*)`, `\(\d+-\d+-\d+\)` (for
  `re.sub`) and `\s+and\s+|,\s*` (for `re.split`) as explicit
  leftmost-match scanners; none of the patterns can backtrack (every
  greedy piece is followed by a character it cannot match), so maximal
  munch is exact;
* the `html.parser.HTMLParser` event loop of `SimpleExtractor` as a fold
  over an explicit event list, plus a small tokenizer producing the
  start-tag / end-tag / data events for the markup shapes used here
  (tags with optional ignored attributes, text runs; entity references,
  comments and self-closing tags are out of scope of the claims);
* `scrape_teams` parameterized by a pure fetcher `String → String`;
  the politeness delay and progress printing do not influence the rows
  and are dropped.

Functions that consume a variable amount of input per step take an
explicit fuel argument initialized with the input length; every step
consumes at least one character, so the fuel is never exhausted on the
initial call and the fallback branches are unreachable.
-/

/-- ASCII whitespace class of Python's `str.split()` / regex `\s`:
space, tab, newline, carriage return, vertical tab, form feed. -/
def isPySpace (c : Char) : Bool :=
  c == ' ' || c == '\t' || c == '\n' || c == '\r' || c == '\x0b' || c == '\x0c'

/-- Python `str.strip()` (ASCII): drop whitespace from both ends. -/
def stripL (l : List Char) : List Char :=
  ((l.dropWhile isPySpace).reverse.dropWhile isPySpace).reverse

/-- Python `str.strip()` at `String` level. -/
def pyStripS (s : String) : String := String.mk (stripL s.toList)

/-- Python `str.startswith(pre)`. -/
def pyStartsWithL (l pre : List Char) : Bool := pre.isPrefixOf l

/-- Python `str.split()` (no separator): split on whitespace runs,
dropping empty fragments.  `cur` is the word fragment accumulated so far. -/
def splitWsAux : List Char → List Char → List (List Char)
  | [], cur => if cur.isEmpty then [] else [cur]
  | c :: r, cur =>
    if isPySpace c then
      if cur.isEmpty then splitWsAux r [] else cur :: splitWsAux r []
    else splitWsAux r (cur ++ [c])

/-- Python `text.split()`. -/
def pySplitWs (l : List Char) : List (List Char) := splitWsAux l []

/-- Separator-prefixed tail of Python `" ".join`: one space before each word. -/
def sepJoin : List (List Char) → List Char
  | [] => []
  | w :: ws => ' ' :: (w ++ sepJoin ws)

/-- Python `" ".join(words)`. -/
def joinSp : List (List Char) → List Char
  | [] => []
  | w :: ws => w ++ sepJoin ws

/-- Python `" ".join(text.split())`, the whitespace cleanup in
`SimpleExtractor.handle_endtag` (line 39 of the source). -/
def pyNormalizeS (s : String) : String := String.mk (joinSp (pySplitWs s.toList))

/-- Match of `record_re = re.compile(r"(\d+-\d+-\d+)")` anchored at the head
of the input: digits, dash, digits, dash, digits, each digit run nonempty
and maximal.  Returns the matched characters. -/
def matchTripleAt (l : List Char) : Option (List Char) :=
  let d1 := l.takeWhile Char.isDigit
  if d1.isEmpty then none else
  match l.drop d1.length with
  | '-' :: r1 =>
    let d2 := r1.takeWhile Char.isDigit
    if d2.isEmpty then none else
    match r1.drop d2.length with
    | '-' :: r2 =>
      let d3 := r2.takeWhile Char.isDigit
      if d3.isEmpty then none else some (d1 ++ '-' :: (d2 ++ '-' :: d3))
    | _ => none
  | _ => none

/-- Python `record_re.search(text)`: leftmost match of `\d+-\d+-\d+`
(line 47 and line 73 of the source). -/
def searchTriple : List Char → Option (List Char)
  | [] => none
  | c :: r =>
    match matchTripleAt (c :: r) with
    | some m => some m
    | none => searchTriple r

/-- Characters of the literal `"Record:"`. -/
def recordChars : List Char := ['R', 'e', 'c', 'o', 'r', 'd', ':']

/-- Characters of the literal `"Coach:"`. -/
def coachChars : List Char := ['C', 'o', 'a', 'c', 'h', ':']

/-- Match of `coach_re = re.compile(r"Coach:\s*(.*)")` anchored at the head:
the literal `Coach:`, a maximal whitespace run, then group 1 is the maximal
run of characters other than newline (regex `.` does not cross `\n`). -/
def matchCoachAt : List Char → Option (List Char)
  | 'C' :: 'o' :: 'a' :: 'c' :: 'h' :: ':' :: r =>
    some ((r.dropWhile isPySpace).takeWhile (fun c => c ≠ '\n'))
  | _ => none

/-- Python `coach_re.search(paragraph)` returning group 1 of the leftmost
match (line 51 of the source). -/
def coachSearch : List Char → Option (List Char)
  | [] => none
  | c :: r =>
    match matchCoachAt (c :: r) with
    | some g => some g
    | none => coachSearch r

/-- Match of `\(\d+-\d+-\d+\)` anchored at the head; returns the input
remaining after the match. -/
def matchParenAt : List Char → Option (List Char)
  | '(' :: r =>
    let d1 := r.takeWhile Char.isDigit
    if d1.isEmpty then none else
    match r.drop d1.length with
    | '-' :: r1 =>
      let d2 := r1.takeWhile Char.isDigit
      if d2.isEmpty then none else
      match r1.drop d2.length with
      | '-' :: r2 =>
        let d3 := r2.takeWhile Char.isDigit
        if d3.isEmpty then none else
        match r2.drop d3.length with
        | ')' :: r3 => some r3
        | _ => none
      | _ => none
    | _ => none
  | _ => none

/-- Python `re.sub(r"\(\d+-\d+-\d+\)", "", text)` (line 56): delete every
leftmost, non-overlapping parenthesized digit triple.  Every match consumes
at least seven characters, so fuel equal to the input length is enough. -/
def subParenFuel : Nat → List Char → List Char
  | _, [] => []
  | 0, l => l
  | n + 1, c :: r =>
    match matchParenAt (c :: r) with
    | some rest => subParenFuel n rest
    | none => c :: subParenFuel n r

/-- Python `re.sub(r"\(\d+-\d+-\d+\)", "", text)`. -/
def subParen (l : List Char) : List Char := subParenFuel l.length l

/-- Match of the split pattern `\s+and\s+|,\s*` anchored at the head,
first alternative preferred; returns the input remaining after the
separator. -/
def matchSepAt (l : List Char) : Option (List Char) :=
  let w1 := l.takeWhile isPySpace
  let alt1 : Option (List Char) :=
    if w1.isEmpty then none else
    match l.drop w1.length with
    | 'a' :: 'n' :: 'd' :: r =>
      let w2 := r.takeWhile isPySpace
      if w2.isEmpty then none else some (r.drop w2.length)
    | _ => none
  match alt1 with
  | some r => some r
  | none =>
    match l with
    | ',' :: r => some (r.dropWhile isPySpace)
    | _ => none

/-- Python `re.split(r"\s+and\s+|,\s*", text)` (line 57): scan left to
right, cutting at each leftmost separator match; empty fragments are kept,
as `re.split` keeps them.  Every separator consumes at least one character,
so fuel equal to the input length is enough. -/
def splitSepFuel : Nat → List Char → List Char → List (List Char)
  | _, [], cur => [cur]
  | 0, l, cur => [cur ++ l]
  | n + 1, c :: r, cur =>
    match matchSepAt (c :: r) with
    | some rest => cur :: splitSepFuel n rest []
    | none => splitSepFuel n r (cur ++ [c])

/-- Python `re.split(r"\s+and\s+|,\s*", text)`. -/
def splitSep (l : List Char) : List (List Char) := splitSepFuel l.length l []

/-- Body of `extract_coaches` (lines 50-60): search `Coach:\s*(.*)`,
delete parenthesized records, split on the separators, strip each fragment
and keep the nonempty ones. -/
def extractCoachesL (l : List Char) : List (List Char) :=
  match coachSearch l with
  | none => []
  | some g => ((splitSep (subParen g)).map stripL).filter (fun w => !w.isEmpty)

/-- Python `extract_coaches(paragraph)`. -/
def extract_coaches (s : String) : List String :=
  (extractCoachesL s.toList).map String.mk

/-- One iteration of the loop in `extract_info_from_html` (lines 69-78):
strip the paragraph; a paragraph starting with `Record:` updates the record
only when the triple pattern matches; a paragraph starting with `Coach:`
always overwrites the coach list. -/
def stepExtract (acc : Option String × List String) (p : String) :
    Option String × List String :=
  let text := stripL p.toList
  (if pyStartsWithL text recordChars then
     match searchTriple text with
     | some m => some (String.mk m)
     | none => acc.1
   else acc.1,
   if pyStartsWithL text coachChars then (extractCoachesL text).map String.mk
   else acc.2)

/-- The record/coach folding pass of `extract_info_from_html` over an
already-reduced paragraph sequence, started from `(None, [])`. -/
def extractFromParagraphs (ps : List String) : Option String × List String :=
  ps.foldl stepExtract (none, [])

/-- Record value a single paragraph contributes: `some` of the leftmost
digit triple when the stripped text starts with `Record:` and the pattern
matches, `none` otherwise. -/
def recMatchS (p : String) : Option String :=
  if pyStartsWithL (stripL p.toList) recordChars then
    (searchTriple (stripL p.toList)).map String.mk
  else none

/-- Contribution of the last paragraph (scanning from the right) whose
record pattern matches. -/
def lastRecordMatch : List String → Option String
  | [] => none
  | p :: ps =>
    match lastRecordMatch ps with
    | some r => some r
    | none => recMatchS p

/-- Coach contribution of a single paragraph: `some` of the parsed names
when the stripped text starts with `Coach:`, `none` otherwise. -/
def coachMatchS (p : String) : Option (List String) :=
  if pyStartsWithL (stripL p.toList) coachChars then
    some ((extractCoachesL (stripL p.toList)).map String.mk)
  else none

/-- Coach list of the last paragraph (scanning from the right) whose
stripped text starts with `Coach:`. -/
def lastCoachNames : List String → Option (List String)
  | [] => none
  | p :: ps =>
    match lastCoachNames ps with
    | some c => some c
    | none => coachMatchS p

/-- Coach pipeline exactly as the specification words it: the remainder
after the literal prefix `Coach:` of the trimmed paragraph, with
parenthesized digit triples deleted, split on the separators, fragments
trimmed and empties dropped. -/
def claimCoachNames (p : String) : List String :=
  let rest := (stripL p.toList).drop coachChars.length
  ((((splitSep (subParen rest)).map stripL).filter (fun w => !w.isEmpty)).map String.mk)

/-- Amended coach pipeline: as `claimCoachNames`, but the remainder also
drops the whitespace run immediately after the `Coach:` prefix, as the
regex `Coach:\s*(.*)` of the code does. -/
def amendedCoachNames (p : String) : List String :=
  let rest := ((stripL p.toList).drop coachChars.length).dropWhile isPySpace
  ((((splitSep (subParen rest)).map stripL).filter (fun w => !w.isEmpty)).map String.mk)

/-- Parser events delivered by `html.parser.HTMLParser` to the
`SimpleExtractor` handlers. -/
inductive HtmlEvent where
  | startTag (tag : String)
  | endTag (tag : String)
  | data (s : String)
deriving DecidableEq

/-- Mutable state of `SimpleExtractor` (lines 24-29). -/
structure ExtractorState where
  in_p : Bool
  buffer : List String
  paragraphs : List String
deriving DecidableEq

/-- The three handlers of `SimpleExtractor` (lines 31-45), dispatched on
the event kind. -/
def handleEvent (st : ExtractorState) (ev : HtmlEvent) : ExtractorState :=
  match ev with
  | HtmlEvent.startTag t =>
    if t == "p" then { st with in_p := true, buffer := [] } else st
  | HtmlEvent.endTag t =>
    if t == "p" && st.in_p then
      { st with
        paragraphs := st.paragraphs ++ [pyNormalizeS (String.join st.buffer)],
        in_p := false }
    else st
  | HtmlEvent.data d =>
    if st.in_p then { st with buffer := st.buffer ++ [d] } else st

/-- Python `parser.feed(html)` after tokenization: fold the handlers over
the event stream. -/
def feedEvents (st : ExtractorState) (evs : List HtmlEvent) : ExtractorState :=
  evs.foldl handleEvent st

/-- Fresh `SimpleExtractor()` state. -/
def initState : ExtractorState :=
  { in_p := false, buffer := [], paragraphs := [] }

/-- Lowercased alphanumeric tag name at the start of tag-interior text,
as `HTMLParser` reports lowercased tag names; trailing attribute text is
ignored by the handlers. -/
def tagNameOf (l : List Char) : String :=
  String.mk ((l.takeWhile Char.isAlphanum).map Char.toLower)

/-- Tokenizer for the markup shapes exercised here, modelling how
`HTMLParser` cuts the input into start-tag, end-tag and data events:
`<...>` is a tag (an end tag when the interior starts with `/`), anything
else is a maximal data run; a `<` never followed by `>` is dropped, as an
unterminated tag is never delivered.  Each step consumes at least one
character, so fuel equal to the input length is enough. -/
def tokenizeFuel : Nat → List Char → List HtmlEvent
  | _, [] => []
  | 0, _ => []
  | n + 1, '<' :: r =>
    let inner := r.takeWhile (fun c => c ≠ '>')
    match r.drop inner.length with
    | _ :: rest =>
      (match inner with
       | '/' :: nm => HtmlEvent.endTag (tagNameOf nm)
       | nm => HtmlEvent.startTag (tagNameOf nm)) :: tokenizeFuel n rest
    | [] => []
  | n + 1, c :: r =>
    let d := (c :: r).takeWhile (fun x => x ≠ '<')
    HtmlEvent.data (String.mk d) :: tokenizeFuel n ((c :: r).drop d.length)

/-- Tokenize an HTML character list into parser events. -/
def tokenize (l : List Char) : List HtmlEvent := tokenizeFuel l.length l

/-- Paragraph sequence produced by the `SimpleExtractor` for one page:
`parser.feed(html); parser.paragraphs` (lines 63-64). -/
def reduceParagraphs (html : String) : List String :=
  (feedEvents initState (tokenize html.toList)).paragraphs

/-- Python `extract_info_from_html(html)` (lines 62-80). -/
def extract_info_from_html (html : String) : Option String × List String :=
  extractFromParagraphs (reduceParagraphs html)

/-- Claim-side whitespace collapsing, worded as the specification does:
every run of whitespace characters becomes a single space character
(`b` records whether the previous character was whitespace). -/
def collapseAux : Bool → List Char → List Char
  | _, [] => []
  | b, c :: r =>
    if isPySpace c then
      if b then collapseAux true r else ' ' :: collapseAux true r
    else c :: collapseAux false r

/-- Claim-side paragraph normalization: collapse every whitespace run to a
single space, then trim leading and trailing whitespace. -/
def specNormalizeS (s : String) : String :=
  String.mk (stripL (collapseAux false s.toList))

/-- The 32 franchise codes of `teams` (lines 82-89). -/
def teams : List String :=
  ["crd", "sea", "sfo", "ram",
   "gnb", "min", "det", "chi",
   "dal", "phi", "nyg", "was",
   "nor", "atl", "tam", "car",
   "kan", "den", "sdg", "rai",
   "pit", "rav", "cin", "cle",
   "nwe", "buf", "mia", "nyj",
   "clt", "oti", "htx", "jax"]

/-- Python `range(a, b)`: the integers from `a` up to but excluding `b`. -/
def pyRange (a b : Nat) : List Nat := (List.range (b - a)).map (fun i => a + i)

/-- The year range `range(1999, 2026)` of line 90. -/
def years : List Nat := pyRange 1999 2026

/-- One row appended by `scrape_teams` (lines 109-114). -/
structure Row where
  team : String
  year : Nat
  record : Option String
  coaches : List String
deriving DecidableEq

/-- URL built on line 105. -/
def pageUrl (team : String) (year : Nat) : String :=
  "https://www.pro-football-reference.com/teams/" ++ team ++ "/" ++
    toString year ++ ".htm"

/-- The (team, year) WorkItems emitted by the loops of `scrape_teams`
(lines 99-103): all teams in order, years in order, skipping `htx` years
before 2002. -/
def schedulePairs (ts : List String) (ys : List Nat) : List (String × Nat) :=
  ts.flatMap (fun team =>
    (ys.filter (fun year => !(team == "htx" && decide (year < 2002)))).map
      (fun year => (team, year)))

/-- Python `scrape_teams` (lines 96-118) with the fetcher abstracted as a
pure function from URL to page text; the politeness delay and progress
print do not affect the rows and are dropped. -/
def scrape_teams (fetch : String → String) (ts : List String) (ys : List Nat) :
    List Row :=
  ts.flatMap (fun team =>
    (ys.filter (fun year => !(team == "htx" && decide (year < 2002)))).map
      (fun year =>
        let rc := extract_info_from_html (fetch (pageUrl team year))
        { team := team, year := year, record := rc.1, coaches := rc.2 }))

/-! Helper lemmas about the extraction fold. -/

theorem stepExtract_fst (acc : Option String × List String) (p : String) :
    (stepExtract acc p).1 =
      match recMatchS p with
      | some r => some r
      | none => acc.1 := by
  simp only [stepExtract, recMatchS, String.toList]
  by_cases h : pyStartsWithL (stripL p.data) recordChars = true
  · simp only [h, if_true]
    cases hs : searchTriple (stripL p.data) <;> simp [hs]
  · simp [h]

theorem stepExtract_snd (acc : Option String × List String) (p : String) :
    (stepExtract acc p).2 =
      match coachMatchS p with
      | some c => c
      | none => acc.2 := by
  simp only [stepExtract, coachMatchS, String.toList]
  by_cases h : pyStartsWithL (stripL p.data) coachChars = true
  · simp [h]
  · simp [h]

theorem foldl_stepExtract_fst (ps : List String) :
    ∀ acc, (ps.foldl stepExtract acc).1 =
      match lastRecordMatch ps with
      | some r => some r
      | none => acc.1 := by
  induction ps with
  | nil => intro acc; simp [lastRecordMatch]
  | cons p ps ih =>
    intro acc
    rw [List.foldl_cons, ih]
    simp only [lastRecordMatch]
    cases h : lastRecordMatch ps with
    | some r => rfl
    | none => rw [stepExtract_fst]

theorem foldl_stepExtract_snd (ps : List String) :
    ∀ acc, (ps.foldl stepExtract acc).2 =
      match lastCoachNames ps with
      | some c => c
      | none => acc.2 := by
  induction ps with
  | nil => intro acc; simp [lastCoachNames]
  | cons p ps ih =>
    intro acc
    rw [List.foldl_cons, ih]
    simp only [lastCoachNames]
    cases h : lastCoachNames ps with
    | some c => rfl
    | none => rw [stepExtract_snd]

theorem lastRecordMatch_none (ps : List String)
    (h : ∀ p ∈ ps, recMatchS p = none) : lastRecordMatch ps = none := by
  induction ps with
  | nil => rfl
  | cons p ps ih =>
    simp only [lastRecordMatch]
    rw [ih (fun q hq => h q (List.mem_cons_of_mem p hq)), h p (List.mem_cons_self p ps)]

theorem lastCoachNames_none (ps : List String)
    (h : ∀ p ∈ ps, coachMatchS p = none) : lastCoachNames ps = none := by
  induction ps with
  | nil => rfl
  | cons p ps ih =>
    simp only [lastCoachNames]
    rw [ih (fun q hq => h q (List.mem_cons_of_mem p hq)), h p (List.mem_cons_self p ps)]

theorem lastCoachNames_append (xs ys : List String) :
    lastCoachNames (xs ++ ys) =
      match lastCoachNames ys with
      | some c => some c
      | none => lastCoachNames xs := by
  induction xs with
  | nil =>
    rw [List.nil_append]
    cases lastCoachNames ys <;> rfl
  | cons x xs ih =>
    rw [List.cons_append]
    simp only [lastCoachNames]
    rw [ih]
    cases lastCoachNames ys <;> cases lastCoachNames xs <;> rfl

/-! Helper lemmas about prefixes and membership. -/

theorem isPrefixOf_ex {α : Type} [BEq α] [LawfulBEq α] (pre l : List α)
    (h : pre.isPrefixOf l = true) : ∃ t, l = pre ++ t := by
  induction pre generalizing l with
  | nil => exact ⟨l, rfl⟩
  | cons c cs ih =>
    cases l with
    | nil => simp [List.isPrefixOf] at h
    | cons d ds =>
      simp only [List.isPrefixOf, Bool.and_eq_true, beq_iff_eq] at h
      obtain ⟨t, ht⟩ := ih ds h.2
      exact ⟨t, by rw [h.1, ht]; rfl⟩

theorem mem_of_mem_dropWhile {α : Type} {a : α} {q : α → Bool} {l : List α}
    (h : a ∈ l.dropWhile q) : a ∈ l := by
  induction l with
  | nil => simp [List.dropWhile] at h
  | cons c r ih =>
    rw [List.dropWhile_cons] at h
    by_cases hc : q c = true
    · simp only [hc, if_true] at h
      exact List.mem_cons_of_mem c (ih h)
    · simp only [hc, if_false] at h
      exact h

theorem mem_of_mem_stripL {a : Char} {l : List Char} (h : a ∈ stripL l) :
    a ∈ l := by
  unfold stripL at h
  rw [List.mem_reverse] at h
  have h2 := mem_of_mem_dropWhile h
  rw [List.mem_reverse] at h2
  exact mem_of_mem_dropWhile h2

theorem takeWhile_eq_of_all {α : Type} {q : α → Bool} {l : List α}
    (h : ∀ a ∈ l, q a = true) : l.takeWhile q = l := by
  induction l with
  | nil => rfl
  | cons c r ih =>
    rw [List.takeWhile_cons, h c (List.mem_cons_self c r),
      ih (fun a ha => h a (List.mem_cons_of_mem c ha))]
    rfl

/-- C1.  Record extraction: a paragraph qualifies exactly when its stripped
text starts with the literal `Record:`; a qualifying paragraph contributes
the leftmost `\d+-\d+-\d+` match verbatim (that is `recMatchS`), a
non-qualifying or non-matching one contributes `none`; the paragraph
`"Record: 9-7-0, 1st in NFC West"` yields `"9-7-0"` and
`"Record: unknown"` yields `None`. -/
theorem C1_record_extraction :
    (∀ p : String, (extractFromParagraphs [p]).1 = recMatchS p) ∧
    (extractFromParagraphs ["Record: 9-7-0, 1st in NFC West"]).1 = some "9-7-0" ∧
    (extractFromParagraphs ["Record: unknown"]).1 = none := by
  refine ⟨fun p => ?_, by decide, by decide⟩
  show (List.foldl stepExtract (none, []) [p]).1 = recMatchS p
  rw [List.foldl_cons, List.foldl_nil, stepExtract_fst]
  cases recMatchS p <;> rfl

/-- C2, counterexample.  For the paragraph `"Coach: and X"` (already
stripped, and it starts with `Coach:`), the code keeps the leading `and`
as part of the single name, because the regex `Coach:\s*(.*)` consumes the
whitespace after the prefix; the claim's pipeline on the literal remainder
after the prefix would instead split on `" and "` and return `["X"]`. -/
theorem C2_counterexample :
    pyStartsWithL (stripL ("Coach: and X").toList) coachChars = true ∧
    extract_coaches (pyStripS "Coach: and X") = ["and X"] ∧
    claimCoachNames "Coach: and X" = ["X"] ∧
    extract_coaches (pyStripS "Coach: and X") ≠ claimCoachNames "Coach: and X" :=
  ⟨by decide, by decide, by decide, by decide⟩

/-- C2, amended.  For every newline-free paragraph whose stripped text
starts with `Coach:`, the extracted coaches are obtained from the remainder
after the `Coach:` prefix and the whitespace run immediately following it,
by deleting every parenthesized digit triple, splitting on whitespace-
surrounded `and` or on comma plus optional whitespace, trimming the
fragments and dropping the empty ones in order; and the three
specification examples hold. -/
theorem C2_coach_extraction_amended :
    (∀ p : String, pyStartsWithL (stripL p.toList) coachChars = true →
      '\n' ∉ p.toList →
      extract_coaches (pyStripS p) = amendedCoachNames p) ∧
    extract_coaches "Coach: John Smith (9-7-0)" = ["John Smith"] ∧
    extract_coaches "Coach: A Jones (5-3-0) and B Lee (4-4-0)" =
      ["A Jones", "B Lee"] ∧
    extract_coaches "Coach: A Jones (5-3-0), B Lee (4-4-0)" =
      ["A Jones", "B Lee"] := by
  refine ⟨fun p h hn => ?_, by decide, by decide, by decide⟩
  obtain ⟨t, ht⟩ := isPrefixOf_ex coachChars (stripL p.toList) h
  show (extractCoachesL (stripL p.toList)).map String.mk = amendedCoachNames p
  have hgroup : coachSearch (stripL p.toList) =
      some (t.dropWhile isPySpace) := by
    rw [ht]
    show coachSearch ('C' :: 'o' :: 'a' :: 'c' :: 'h' :: ':' :: t) = _
    simp only [coachSearch, matchCoachAt]
    rw [takeWhile_eq_of_all]
    intro a ha
    have hat : a ∈ t := mem_of_mem_dropWhile ha
    have hap : a ∈ p.toList := by
      apply mem_of_mem_stripL (l := p.toList)
      rw [ht]
      exact List.mem_append_right _ hat
    simp only [decide_eq_true_eq]
    intro hcontra
    rw [hcontra] at hap
    exact hn hap
  unfold extractCoachesL
  rw [hgroup]
  unfold amendedCoachNames
  rw [ht]
  have hdrop : (coachChars ++ t).drop coachChars.length = t := by
    simp [coachChars]
  rw [hdrop]

/-- C2, witness for the amended theorem at a concrete input. -/
theorem C2_witness :
    extract_coaches (pyStripS "Coach: A Jones (5-3-0) and B Lee (4-4-0)") =
      amendedCoachNames "Coach: A Jones (5-3-0) and B Lee (4-4-0)" :=
  C2_coach_extraction_amended.1 "Coach: A Jones (5-3-0) and B Lee (4-4-0)"
    (by decide) (by decide)

/-- C3, counterexample.  Both paragraphs below qualify (stripped text
starts with `Record:`), the second is the last qualifying one and contains
no digit triple; the extractor keeps the earlier match `"1-2-3"`, while a
sequence whose only qualifying paragraph is that same last paragraph gives
`None`.  The record is therefore not determined solely by the last
qualifying paragraph. -/
theorem C3_counterexample :
    pyStartsWithL (stripL ("Record: 1-2-3").toList) recordChars = true ∧
    pyStartsWithL (stripL ("Record: unknown").toList) recordChars = true ∧
    (extractFromParagraphs ["Record: 1-2-3", "Record: unknown"]).1 =
      some "1-2-3" ∧
    (extractFromParagraphs ["Record: unknown"]).1 = none ∧
    (extractFromParagraphs ["Record: 1-2-3", "Record: unknown"]).1 ≠
      (extractFromParagraphs ["Record: unknown"]).1 :=
  ⟨by decide, by decide, by decide, by decide, by decide⟩

/-- C3, amended.  Later qualifying `Record:` paragraphs overwrite earlier
ones only when they contain the digit triple pattern: for every paragraph
sequence the returned record is the contribution of the last qualifying
paragraph in which the pattern matches (`lastRecordMatch`), and a trailing
qualifying paragraph without the pattern leaves the earlier match in
place. -/
theorem C3_record_last_wins_amended (ps : List String) :
    (extractFromParagraphs ps).1 = lastRecordMatch ps := by
  show (List.foldl stepExtract (none, []) ps).1 = lastRecordMatch ps
  rw [foldl_stepExtract_fst]
  cases lastRecordMatch ps <;> rfl

/-- C5.  Coaches "last wins": whenever `p` is the last paragraph of the
sequence whose stripped text starts with `Coach:` (in particular whenever
at least two qualifying paragraphs occur, for the final one), the returned
coach list is exactly the one parsed from `p`; contributions of earlier
qualifying paragraphs are discarded. -/
theorem C5_coach_last_wins (ps₁ : List String) (p : String) (ps₂ : List String)
    (h : pyStartsWithL (stripL p.toList) coachChars = true)
    (h₂ : ∀ q ∈ ps₂, pyStartsWithL (stripL q.toList) coachChars = false) :
    (extractFromParagraphs (ps₁ ++ p :: ps₂)).2 = extract_coaches (pyStripS p) := by
  show (List.foldl stepExtract (none, []) (ps₁ ++ p :: ps₂)).2 = _
  rw [foldl_stepExtract_snd, lastCoachNames_append]
  have hnone : lastCoachNames ps₂ = none := by
    apply lastCoachNames_none
    intro q hq
    unfold coachMatchS
    rw [h₂ q hq]
    rfl
  show (match
      match lastCoachNames (p :: ps₂) with
      | some c => some c
      | none => lastCoachNames ps₁ with
    | some c => c
    | none => (none, ([] : List String)).2) = _
  simp only [lastCoachNames, hnone]
  unfold coachMatchS
  rw [h]
  rfl

/-- C5, witness at a concrete two-paragraph sequence. -/
theorem C5_witness :
    (extractFromParagraphs ["Coach: A Jones", "Coach: B Lee"]).2 =
      extract_coaches (pyStripS "Coach: B Lee") :=
  C5_coach_last_wins ["Coach: A Jones"] "Coach: B Lee" [] (by decide)
    (fun q hq => absurd hq (List.not_mem_nil q))

/-- C6.  Totality of reduce-then-extract: `extract_info_from_html` is a
total function into pairs (by construction, every embedded operation is
total), and absence degrades rather than errors: when no reduced paragraph
contributes a record match the record component is `None`, and when no
reduced paragraph qualifies as a `Coach:` paragraph the coach component is
the empty list. -/
theorem C6_extraction_never_fails (html : String) :
    ((∀ p ∈ reduceParagraphs html, recMatchS p = none) →
      (extract_info_from_html html).1 = none) ∧
    ((∀ p ∈ reduceParagraphs html,
        pyStartsWithL (stripL p.toList) coachChars = false) →
      (extract_info_from_html html).2 = []) := by
  constructor
  · intro h
    show (List.foldl stepExtract (none, []) (reduceParagraphs html)).1 = none
    rw [foldl_stepExtract_fst, lastRecordMatch_none _ h]
  · intro h
    show (List.foldl stepExtract (none, []) (reduceParagraphs html)).2 = []
    rw [foldl_stepExtract_snd, lastCoachNames_none]
    intro p hp
    unfold coachMatchS
    rw [h p hp]
    rfl

/-- C6, witness: a page with one paragraph that matches neither field. -/
theorem C6_witness :
    (extract_info_from_html "<p>hello</p>").1 = none ∧
    (extract_info_from_html "<p>hello</p>").2 = [] :=
  ⟨(C6_extraction_never_fails "<p>hello</p>").1 (by decide),
   (C6_extraction_never_fails "<p>hello</p>").2 (by decide)⟩

/-! Equivalence of the code's whitespace cleanup with the specification's
description of it (collapse every whitespace run to one space, trim). -/

/-- Drop trailing whitespace, recursively from the front. -/
def stripEnd : List Char → List Char
  | [] => []
  | c :: r =>
    let s := stripEnd r
    if s.isEmpty then (if isPySpace c then [] else [c]) else c :: s


theorem stripEnd_cons (c : Char) (r : List Char) :
    stripEnd (c :: r) =
      if (stripEnd r).isEmpty then (if isPySpace c then [] else [c])
      else c :: stripEnd r := rfl

theorem revDropWhile_eq_stripEnd (l : List Char) :
    (l.reverse.dropWhile isPySpace).reverse = stripEnd l := by
  induction l with
  | nil => rfl
  | cons c r ih =>
    rw [List.reverse_cons, List.dropWhile_append, stripEnd_cons]
    by_cases hA : (r.reverse.dropWhile isPySpace).isEmpty = true
    · have hnil : stripEnd r = [] := by
        rw [← ih]
        simp only [List.isEmpty_iff] at hA
        rw [hA]
        rfl
      rw [hnil]
      simp only [hA, if_true, List.isEmpty_nil]
      by_cases hc : isPySpace c = true
      · simp [List.dropWhile_cons, hc]
      · simp [List.dropWhile_cons, hc]
    · rw [Bool.not_eq_true] at hA
      have hne : stripEnd r ≠ [] := by
        rw [← ih]
        intro hcon
        have hnil : r.reverse.dropWhile isPySpace = [] := by
          have := congrArg List.reverse hcon
          simpa using this
        rw [hnil] at hA
        simp at hA
      have hse : (stripEnd r).isEmpty = false := by
        cases h : stripEnd r with
        | nil => exact absurd h hne
        | cons x xs => rfl
      simp only [hA, Bool.false_eq_true, if_false, hse, List.reverse_append]
      rw [ih]
      rfl

theorem stripL_eq_stripEnd (l : List Char) :
    stripL l = stripEnd (l.dropWhile isPySpace) := by
  unfold stripL
  rw [revDropWhile_eq_stripEnd]

theorem collapse_true_head (l : List Char) :
    ∀ c r, collapseAux true l = c :: r → isPySpace c = false := by
  induction l with
  | nil => intro c r h; simp [collapseAux] at h
  | cons d l ih =>
    intro c r h
    by_cases hd : isPySpace d = true
    · rw [show collapseAux true (d :: l) = collapseAux true l from by
        simp [collapseAux, hd]] at h
      exact ih c r h
    · rw [show collapseAux true (d :: l) = d :: collapseAux false l from by
        simp [collapseAux, hd]] at h
      rw [Bool.not_eq_true] at hd
      cases h
      exact hd

theorem dropWhile_collapse_true (l : List Char) :
    (collapseAux true l).dropWhile isPySpace = collapseAux true l := by
  cases h : collapseAux true l with
  | nil => rfl
  | cons c r =>
    rw [List.dropWhile_cons, collapse_true_head l c r h]
    simp

theorem dropWhile_collapse_false (l : List Char) :
    (collapseAux false l).dropWhile isPySpace = collapseAux true l := by
  cases l with
  | nil => rfl
  | cons c r =>
    by_cases hc : isPySpace c = true
    · rw [show collapseAux false (c :: r) = ' ' :: collapseAux true r from by
        simp [collapseAux, hc]]
      rw [show collapseAux true (c :: r) = collapseAux true r from by
        simp [collapseAux, hc]]
      rw [List.dropWhile_cons]
      simp only [show isPySpace ' ' = true from rfl, if_true]
      exact dropWhile_collapse_true r
    · rw [show collapseAux false (c :: r) = c :: collapseAux false r from by
        simp [collapseAux, hc]]
      rw [show collapseAux true (c :: r) = c :: collapseAux false r from by
        simp [collapseAux, hc]]
      rw [List.dropWhile_cons]
      rw [Bool.not_eq_true] at hc
      simp [hc]

theorem splitWsAux_ne_nil (l : List Char) :
    ∀ w : List Char, w ≠ [] → splitWsAux l w ≠ [] := by
  induction l with
  | nil =>
    intro w hw
    have hwe : w.isEmpty = false := by
      cases w with
      | nil => exact absurd rfl hw
      | cons a as => rfl
    simp [splitWsAux, hwe]
  | cons c r ih =>
    intro w hw
    have hwe : w.isEmpty = false := by
      cases w with
      | nil => exact absurd rfl hw
      | cons a as => rfl
    by_cases hc : isPySpace c = true
    · rw [show splitWsAux (c :: r) w = w :: splitWsAux r [] from by
        simp [splitWsAux, hc, hwe]]
      simp
    · rw [show splitWsAux (c :: r) w = splitWsAux r (w ++ [c]) from by
        simp [splitWsAux, hc]]
      exact ih (w ++ [c]) (by simp)

theorem splitWs_nil_iff (l : List Char) :
    splitWsAux l [] = [] ↔ l.all isPySpace = true := by
  induction l with
  | nil => simp [splitWsAux]
  | cons c r ih =>
    by_cases hc : isPySpace c = true
    · rw [show splitWsAux (c :: r) [] = splitWsAux r [] from by
        simp [splitWsAux, hc]]
      simp [List.all_cons, hc, ih]
    · rw [show splitWsAux (c :: r) [] = splitWsAux r [c] from by
        simp [splitWsAux, hc]]
      constructor
      · intro h
        exact absurd h (splitWsAux_ne_nil r [c] (by simp))
      · intro h
        simp [List.all_cons, hc] at h

theorem collapse_true_nil_iff (l : List Char) :
    collapseAux true l = [] ↔ l.all isPySpace = true := by
  induction l with
  | nil => simp [collapseAux]
  | cons c r ih =>
    by_cases hc : isPySpace c = true
    · rw [show collapseAux true (c :: r) = collapseAux true r from by
        simp [collapseAux, hc]]
      simp [List.all_cons, hc, ih]
    · rw [show collapseAux true (c :: r) = c :: collapseAux false r from by
        simp [collapseAux, hc]]
      simp [List.all_cons, hc]

theorem stripEnd_cons_of_not_ws (c : Char) (r : List Char)
    (hc : isPySpace c = false) : stripEnd (c :: r) = c :: stripEnd r := by
  rw [stripEnd_cons]
  by_cases h : (stripEnd r).isEmpty = true
  · rw [List.isEmpty_iff] at h
    rw [h]
    simp [hc]
  · rw [Bool.not_eq_true] at h
    simp [h]

theorem sepJoin_eq_cons (xs : List (List Char)) (h : xs ≠ []) :
    sepJoin xs = ' ' :: joinSp xs := by
  cases xs with
  | nil => exact absurd rfl h
  | cons v vs => rfl

theorem joinSp_splitWs_spec (l : List Char) :
    joinSp (splitWsAux l []) = stripEnd (collapseAux true l) ∧
    ∀ w : List Char, w ≠ [] →
      joinSp (splitWsAux l w) = w ++ stripEnd (collapseAux false l) := by
  induction l with
  | nil =>
    refine ⟨rfl, fun w hw => ?_⟩
    have hwe : w.isEmpty = false := by
      cases w with
      | nil => exact absurd rfl hw
      | cons a as => rfl
    rw [show splitWsAux [] w = [w] from by simp [splitWsAux, hwe]]
    show w ++ sepJoin [] = w ++ stripEnd (collapseAux false [])
    rfl
  | cons c r ih =>
    by_cases hc : isPySpace c = true
    · constructor
      · rw [show splitWsAux (c :: r) [] = splitWsAux r [] from by
          simp [splitWsAux, hc]]
        rw [show collapseAux true (c :: r) = collapseAux true r from by
          simp [collapseAux, hc]]
        exact ih.1
      · intro w hw
        have hwe : w.isEmpty = false := by
          cases w with
          | nil => exact absurd rfl hw
          | cons a as => rfl
        rw [show splitWsAux (c :: r) w = w :: splitWsAux r [] from by
          simp [splitWsAux, hc, hwe]]
        rw [show collapseAux false (c :: r) = ' ' :: collapseAux true r from by
          simp [collapseAux, hc]]
        show w ++ sepJoin (splitWsAux r []) = w ++ stripEnd (' ' :: collapseAux true r)
        congr 1
        by_cases hall : r.all isPySpace = true
        · rw [(splitWs_nil_iff r).mpr hall, (collapse_true_nil_iff r).mpr hall]
          rfl
        · have h1 : splitWsAux r [] ≠ [] :=
            fun hcon => hall ((splitWs_nil_iff r).mp hcon)
          have h2 : collapseAux true r ≠ [] :=
            fun hcon => hall ((collapse_true_nil_iff r).mp hcon)
          rw [sepJoin_eq_cons _ h1, ih.1]
          cases h3 : collapseAux true r with
          | nil => exact absurd h3 h2
          | cons x xs =>
            have hx : isPySpace x = false := collapse_true_head r x xs h3
            rw [stripEnd_cons_of_not_ws x xs hx, stripEnd_cons]
            rw [stripEnd_cons_of_not_ws x xs hx]
            simp
    · have hcf : isPySpace c = false := by rwa [Bool.not_eq_true] at hc
      have hG : ∀ w : List Char, w ≠ [] →
          joinSp (splitWsAux (c :: r) w) = w ++ stripEnd (collapseAux false (c :: r)) := by
        intro w hw
        rw [show splitWsAux (c :: r) w = splitWsAux r (w ++ [c]) from by
          simp [splitWsAux, hc]]
        rw [ih.2 (w ++ [c]) (by simp)]
        rw [show collapseAux false (c :: r) = c :: collapseAux false r from by
          simp [collapseAux, hc]]
        rw [stripEnd_cons_of_not_ws c _ hcf]
        simp
    
      refine ⟨?_, hG⟩
      rw [show splitWsAux (c :: r) [] = splitWsAux r [c] from by
        simp [splitWsAux, hc]]
      rw [ih.2 [c] (by simp)]
      rw [show collapseAux true (c :: r) = c :: collapseAux false r from by
        simp [collapseAux, hc]]
      rw [stripEnd_cons_of_not_ws c _ hcf]
      rfl

theorem pyNormalize_eq_specNormalize (s : String) :
    pyNormalizeS s = specNormalizeS s := by
  unfold pyNormalizeS specNormalizeS pySplitWs
  congr 1
  rw [(joinSp_splitWs_spec s.toList).1, stripL_eq_stripEnd, dropWhile_collapse_false]

theorem handleEvent_startP (st : ExtractorState) :
    handleEvent st (HtmlEvent.startTag "p") = { st with in_p := true, buffer := [] } := rfl

theorem handleEvent_data_in (st : ExtractorState) (d : String) (h : st.in_p = true) :
    handleEvent st (HtmlEvent.data d) = { st with buffer := st.buffer ++ [d] } := by
  simp [handleEvent, h]

theorem handleEvent_endP (st : ExtractorState) (h : st.in_p = true) :
    handleEvent st (HtmlEvent.endTag "p") =
      { st with
        paragraphs := st.paragraphs ++ [pyNormalizeS (String.join st.buffer)],
        in_p := false } := by
  simp [handleEvent, h]

theorem feedEvents_cons (st : ExtractorState) (e : HtmlEvent) (evs : List HtmlEvent) :
    feedEvents st (e :: evs) = feedEvents (handleEvent st e) evs := rfl

theorem feedEvents_append (st : ExtractorState) (xs ys : List HtmlEvent) :
    feedEvents st (xs ++ ys) = feedEvents (feedEvents st xs) ys := by
  simp [feedEvents, List.foldl_append]

theorem feed_data_run (ds : List String) :
    ∀ st : ExtractorState, st.in_p = true →
    feedEvents st (ds.map HtmlEvent.data) = { st with buffer := st.buffer ++ ds } := by
  induction ds with
  | nil => intro st h; simp [feedEvents]
  | cons d ds ih =>
    intro st h
    rw [List.map_cons, feedEvents_cons, handleEvent_data_in st d h,
      ih ({ st with buffer := st.buffer ++ [d] }) h]
    simp

theorem feed_p_element (st : ExtractorState) (ds : List String) :
    feedEvents st
      (HtmlEvent.startTag "p" :: (ds.map HtmlEvent.data ++ [HtmlEvent.endTag "p"])) =
      { in_p := false, buffer := ds,
        paragraphs := st.paragraphs ++ [pyNormalizeS (String.join ds)] } := by
  rw [feedEvents_cons, handleEvent_startP, feedEvents_append, feed_data_run ds _ rfl]
  simp [feedEvents, List.foldl, handleEvent]

theorem join_all_ws (ds : List String) (h : ∀ d ∈ ds, d.toList.all isPySpace = true) :
    (String.join ds).toList.all isPySpace = true := by
  have gen : ∀ (es : List String) (acc : String), acc.toList.all isPySpace = true →
      (∀ d ∈ es, d.toList.all isPySpace = true) →
      (List.foldl (fun r s => r ++ s) acc es).toList.all isPySpace = true := by
    intro es
    induction es with
    | nil => intro acc ha _; exact ha
    | cons d es ih =>
      intro acc ha hm
      rw [List.foldl_cons]
      apply ih
      · show ((acc ++ d)).toList.all isPySpace = true
        rw [show (acc ++ d).toList = acc.toList ++ d.toList from String.data_append acc d,
          List.all_append, ha, hm d (List.mem_cons_self d es)]
        rfl
      · intro d' hd'
        exact hm d' (List.mem_cons_of_mem d hd')
  exact gen ds "" rfl h

theorem pyNormalizeS_of_all_ws (s : String) (h : s.toList.all isPySpace = true) :
    pyNormalizeS s = "" := by
  unfold pyNormalizeS pySplitWs
  rw [(splitWs_nil_iff s.toList).mpr h]
  rfl

/-- C7.  Paragraph whitespace normalization: for every well-formed
single-level paragraph element (a `p` start tag, any data events, a `p`
end tag), in any parser state, the emitted paragraph is the concatenated
inner text with every whitespace run collapsed to one space and no
leading or trailing whitespace (`specNormalizeS`); concretely,
`"<p> a\tb\n c </p>"` reduces to `["a b c"]`. -/
theorem C7_paragraph_whitespace_normalization :
    (∀ (st : ExtractorState) (ds : List String),
      (feedEvents st
        (HtmlEvent.startTag "p" :: (ds.map HtmlEvent.data ++ [HtmlEvent.endTag "p"]))).paragraphs =
        st.paragraphs ++ [specNormalizeS (String.join ds)]) ∧
    reduceParagraphs "<p> a\tb\n c </p>" = ["a b c"] := by
  refine ⟨fun st ds => ?_, by decide⟩
  rw [feed_p_element]
  show st.paragraphs ++ [pyNormalizeS (String.join ds)] = _
  rw [pyNormalize_eq_specNormalize]

/-- C9.  A repeated `p` start tag inside an open paragraph discards the
buffered text: whatever data events arrived after the first start tag,
only the data after the last start tag before the end tag is emitted;
concretely `"<p>a<p>b</p>"` reduces to `["b"]`. -/
theorem C9_repeated_start_discards_buffer :
    (∀ (st : ExtractorState) (ds₀ ds : List String),
      (feedEvents st
        (HtmlEvent.startTag "p" ::
          (ds₀.map HtmlEvent.data ++
            (HtmlEvent.startTag "p" ::
              (ds.map HtmlEvent.data ++ [HtmlEvent.endTag "p"]))))).paragraphs =
        st.paragraphs ++ [pyNormalizeS (String.join ds)]) ∧
    reduceParagraphs "<p>a<p>b</p>" = ["b"] := by
  refine ⟨fun st ds₀ ds => ?_, by decide⟩
  rw [feedEvents_cons, handleEvent_startP, feedEvents_append, feed_data_run ds₀ _ rfl,
    feed_p_element]

/-- C10.  Empty or whitespace-only paragraph elements emit the empty
string instead of being skipped: in any parser state, a `p` element all
of whose data is whitespace appends `""` to the output sequence;
concretely both `"<p></p>"` and `"<p>   </p>"` reduce to `[""]`. -/
theorem C10_empty_paragraph_emitted :
    (∀ (st : ExtractorState) (ds : List String),
      (∀ d ∈ ds, d.toList.all isPySpace = true) →
      (feedEvents st
        (HtmlEvent.startTag "p" :: (ds.map HtmlEvent.data ++ [HtmlEvent.endTag "p"]))).paragraphs =
        st.paragraphs ++ [""]) ∧
    reduceParagraphs "<p></p>" = [""] ∧
    reduceParagraphs "<p>   </p>" = [""] := by
  refine ⟨fun st ds h => ?_, by decide, by decide⟩
  rw [feed_p_element]
  show st.paragraphs ++ [pyNormalizeS (String.join ds)] = st.paragraphs ++ [""]
  rw [pyNormalizeS_of_all_ws _ (join_all_ws ds h)]

/-- C10, witness for the general part at a concrete state and data. -/
theorem C10_witness :
    (feedEvents initState
      (HtmlEvent.startTag "p" ::
        (["   "].map HtmlEvent.data ++ [HtmlEvent.endTag "p"]))).paragraphs =
      initState.paragraphs ++ [""] :=
  C10_empty_paragraph_emitted.1 initState ["   "] (by decide)

/-- C4, counterexample.  With the inclusive year range 1999..2003 the
scheduler emits two WorkItems for `htx` (years 2002 and 2003), not exactly
one. -/
theorem C4_counterexample :
    (schedulePairs teams [1999, 2000, 2001, 2002, 2003]).countP
        (fun it => it.1 == "htx") = 2 ∧
    (schedulePairs teams [1999, 2000, 2001, 2002, 2003]).countP
        (fun it => it.1 == "htx") ≠ 1 :=
  ⟨by decide, by decide⟩

/-- C4, amended.  Existence filtering: no WorkItem for `htx` is ever
generated with a year below the founding year 2002, whatever the team list
and year range; and for the inclusive year range 1999..2003 exactly two
WorkItems are emitted for `htx` (years 2002 and 2003). -/
theorem C4_schedule_existence_amended :
    (∀ (ts : List String) (ys : List Nat) (y : Nat),
      ("htx", y) ∈ schedulePairs ts ys → 2002 ≤ y) ∧
    (schedulePairs teams [1999, 2000, 2001, 2002, 2003]).countP
      (fun it => it.1 == "htx") = 2 := by
  refine ⟨fun ts ys y hy => ?_, by decide⟩
  unfold schedulePairs at hy
  rw [List.mem_flatMap] at hy
  obtain ⟨team, hteam, hmem⟩ := hy
  rw [List.mem_map] at hmem
  obtain ⟨year, hyear, heq⟩ := hmem
  rw [List.mem_filter] at hyear
  obtain ⟨hyl, hcond⟩ := hyear
  rw [Prod.mk.injEq] at heq
  obtain ⟨hteq, hyeq⟩ := heq
  rw [hteq, hyeq] at hcond
  simp only [beq_self_eq_true, Bool.true_and, Bool.not_eq_true',
    decide_eq_false_iff_not, Nat.not_lt] at hcond
  exact hcond

/-- C4, witness for the universal part of the amended theorem. -/
theorem C4_witness :
    ("htx", 2002) ∈ schedulePairs ["htx"] [2002] ∧ 2002 ≤ 2002 :=
  ⟨by decide, C4_schedule_existence_amended.1 ["htx"] [2002] 2002 (by decide)⟩

/-- C8.  Pipeline determinism: the crawl table is a pure function of the
fetcher output on the scheduled URLs, the team list and the year range —
two runs against fetchers that agree on every scheduled page URL produce
identical row lists (in particular, running the pipeline twice on the same
fetcher output yields identical tables). -/
theorem C8_pipeline_deterministic (f g : String → String) (ts : List String)
    (ys : List Nat) :
    (∀ t y, (t, y) ∈ schedulePairs ts ys → f (pageUrl t y) = g (pageUrl t y)) →
    scrape_teams f ts ys = scrape_teams g ts ys := by
  induction ts with
  | nil => intro _; rfl
  | cons t ts ih =>
    intro h
    have h2 : scrape_teams f ts ys = scrape_teams g ts ys := by
      apply ih
      intro t' y' hmem
      apply h t' y'
      unfold schedulePairs
      rw [List.flatMap_cons]
      apply List.mem_append_right
      exact hmem
    have h1 : (ys.filter (fun year => !(t == "htx" && decide (year < 2002)))).map
          (fun year =>
            let rc := extract_info_from_html (f (pageUrl t year))
            ({ team := t, year := year, record := rc.1, coaches := rc.2 } : Row)) =
        (ys.filter (fun year => !(t == "htx" && decide (year < 2002)))).map
          (fun year =>
            let rc := extract_info_from_html (g (pageUrl t year))
            ({ team := t, year := year, record := rc.1, coaches := rc.2 } : Row)) := by
      apply List.map_congr_left
      intro y hy
      have hmem : (t, y) ∈ schedulePairs (t :: ts) ys := by
        unfold schedulePairs
        rw [List.flatMap_cons]
        apply List.mem_append_left
        exact List.mem_map.mpr ⟨y, hy, rfl⟩
      show (let rc := extract_info_from_html (f (pageUrl t y))
            ({ team := t, year := y, record := rc.1, coaches := rc.2 } : Row)) = _
      rw [h t y hmem]
    unfold scrape_teams
    rw [List.flatMap_cons, List.flatMap_cons, h1]
    congr 1

/-- C8, witness: two runs over the same canned fetcher on one WorkItem. -/
theorem C8_witness :
    scrape_teams (fun _ => "<p>Record: 9-7-0</p>") ["crd"] [1999] =
      scrape_teams (fun _ => "<p>Record: 9-7-0</p>") ["crd"] [1999] :=
  C8_pipeline_deterministic (fun _ => "<p>Record: 9-7-0</p>")
    (fun _ => "<p>Record: 9-7-0</p>") ["crd"] [1999] (fun _ _ _ => rfl)
